import Mathlib

/-!
Verification of the sequential model-based optimization (SMBO) design used by
the Bayesian hyperparameter-tuning notebook
(Section-06-Bayesian-Optimization/03-Bayesian-Optimization-GBM-Manual.ipynb).

The notebook itself contains the concrete search space (param_grid), the
objective closure over a shared GradientBoostingClassifier, and a call to the
imported optimizer gp_minimize.  The optimizer loop is not part of the
repository source, so it is modelled here from the specification (state
machine Exploring then Exploiting, budget n_calls, append-only observation
history, derived BestResult, Expected Improvement acquisition).
-/

namespace SMBO

/-- An observation pairs a candidate point with its recorded objective value.
Values are rationals in this embedding (the notebook records finite scalars). -/
abbrev Obs (α : Type) := α × ℚ

/-- Modelled from the spec: BestResult is the derived view over the Observation
history, the Observation with minimal value, ties broken by earliest
occurrence (the recursive form keeps the earlier entry unless a strictly
smaller value appears later). -/
def bestResult {α : Type} : List (Obs α) → Option (Obs α)
  | [] => none
  | o :: rest =>
    some (match bestResult rest with
          | none => o
          | some b => if b.2 < o.2 then b else o)

/-!
## The optimization driver (modelled from the spec)

The driver is parametric in the candidate type, in the random sampling stream
(the i-th candidate drawn from the seeded RNG), in the model-guided proposal
function (acquisition maximization over the space given the history), and in
the objective.  One observation is appended per objective evaluation until the
budget n_calls is reached.
-/

/-- Modelled from the spec: run configuration of gp_minimize — the budget
n_calls and the number of initial random points (acquisition choice and seed
are abstracted into the propose and sample functions). -/
structure RunConfig where
  n_initial_points : ℕ
  n_calls : ℕ

/-- Driver states named by the spec state machine. -/
inductive Phase where
  | Exploring : Phase
  | Exploiting : Phase
deriving DecidableEq

/-- Modelled from the spec: the phase in which the evaluation with k prior
observations occurs — random exploration while fewer than n_initial_points
observations exist, model-guided exploitation afterwards. -/
def phaseAt (ni : ℕ) (k : ℕ) : Phase :=
  if k < ni then Phase.Exploring else Phase.Exploiting

/-- Modelled from the spec: the next candidate — drawn by sample_random in the
Exploring phase, chosen by acquisition maximization in the Exploiting phase. -/
def nextCandidate {α : Type} (ni : ℕ) (sample : ℕ → α)
    (propose : List (Obs α) → α) (hist : List (Obs α)) : α :=
  if hist.length < ni then sample hist.length else propose hist

/-- Modelled from the spec: the observation history after n objective
evaluations, one appended per evaluation. -/
def runHistory {α : Type} (ni : ℕ) (sample : ℕ → α)
    (propose : List (Obs α) → α) (f : α → ℚ) : ℕ → List (Obs α)
  | 0 => []
  | n + 1 =>
    let h := runHistory ni sample propose f n
    let c := nextCandidate ni sample propose h
    h ++ [(c, f c)]

/-- Modelled from the spec: gp_minimize runs until the evaluation count
reaches n_calls and returns the full history together with the BestResult. -/
def gpMinimize {α : Type} (cfg : RunConfig) (sample : ℕ → α)
    (propose : List (Obs α) → α) (f : α → ℚ) :
    List (Obs α) × Option (Obs α) :=
  let h := runHistory cfg.n_initial_points sample propose f cfg.n_calls
  (h, bestResult h)

/-- The observation appended at step k (k prior observations exist). -/
def runEntry {α : Type} (ni : ℕ) (sample : ℕ → α)
    (propose : List (Obs α) → α) (f : α → ℚ) (k : ℕ) : Obs α :=
  (nextCandidate ni sample propose (runHistory ni sample propose f k),
   f (nextCandidate ni sample propose (runHistory ni sample propose f k)))

/-!
## Stateful evaluation

The notebook's objective closure mutates shared state (the single gbm
estimator, and in general any hidden environment, such as an RNG used by
cross-validation).  This runner threads that state through the evaluations.
-/

/-- Modelled from the spec: the driver loop where evaluation may read and
update a hidden state of type σ, returning the final state and the history. -/
def runHistoryS {α σ : Type} (ni : ℕ) (sample : ℕ → α)
    (propose : List (Obs α) → α) (eval : σ → α → σ × ℚ) : ℕ → σ → σ × List (Obs α)
  | 0, s => (s, [])
  | n + 1, s =>
    let p := runHistoryS ni sample propose eval n s
    let c := nextCandidate ni sample propose p.2
    let r := eval p.1 c
    (r.1, p.2 ++ [(c, r.2)])

/-!
## The notebook's concrete search space, estimator and objective (from src)
-/

/-- From the source param_grid: the loss dimension is
Categorical([deviance, exponential]). -/
inductive LossKind where
  | deviance : LossKind
  | exponential : LossKind
deriving DecidableEq

/-- A concrete assignment for the notebook's four searched dimensions
(n_estimators, min_samples_split, max_depth, loss). -/
structure GBMCandidate where
  n_estimators : ℤ
  min_samples_split : ℚ
  max_depth : ℤ
  loss : LossKind
deriving DecidableEq

/-- The mutable state of the shared GradientBoostingClassifier instance: the
four searched hyperparameters plus the fixed random_state. -/
structure GBMState where
  n_estimators : ℤ
  min_samples_split : ℚ
  max_depth : ℤ
  loss : LossKind
  random_state : ℤ
deriving DecidableEq

/-- From the source (gbm = GradientBoostingClassifier(random_state=0)): the
shared estimator created once, with random_state 0 and library defaults for
the searched hyperparameters. -/
def gbmInit : GBMState :=
  { n_estimators := 100, min_samples_split := 2, max_depth := 3,
    loss := LossKind.deviance, random_state := 0 }

/-- From the source (gbm.set_params(**params) inside objective): overwrite the
four searched hyperparameters of the shared estimator in place, leaving every
other field (random_state) unchanged. -/
def set_params (s : GBMState) (c : GBMCandidate) : GBMState :=
  { s with n_estimators := c.n_estimators,
           min_samples_split := c.min_samples_split,
           max_depth := c.max_depth,
           loss := c.loss }

/-- From the source objective: the returned scalar is the negation of the
mean of the cross-validation scores (value = -np.mean(cross_val_score(...))). -/
def objectiveValue (scores : List ℚ) : ℚ :=
  -(scores.sum / (scores.length : ℚ))

/-- From the source objective closure: apply the candidate's hyperparameters
to the shared estimator via set_params, score the mutated estimator with
3-fold cross-validation (cv abstracts cross_val_score on the training split),
and return the negated mean accuracy together with the mutated estimator. -/
def objectiveS (cv : GBMState → List ℚ) (s : GBMState) (c : GBMCandidate) :
    GBMState × ℚ :=
  let s2 := set_params s c
  (s2, objectiveValue (cv s2))

/-!
## Objective failure policy
-/

/-- Modelled from the spec: the explicit policy for a failing objective —
abort the run, or record a configured penalty value and continue. -/
inductive FailPolicy where
  | fatal : FailPolicy
  | penalty : ℚ → FailPolicy

/-- Modelled from the spec: the driver loop with a fallible objective
(none models the objective raising).  Under fatal the run aborts (result
none); under penalty the configured value is recorded and the run continues. -/
def runHistoryE {α : Type} (ni : ℕ) (sample : ℕ → α)
    (propose : List (Obs α) → α) (f : α → Option ℚ) (pol : FailPolicy) :
    ℕ → Option (List (Obs α))
  | 0 => some []
  | n + 1 =>
    match runHistoryE ni sample propose f pol n with
    | none => none
    | some h =>
      let c := nextCandidate ni sample propose h
      match f c, pol with
      | some v, _ => some (h ++ [(c, v)])
      | none, FailPolicy.fatal => none
      | none, FailPolicy.penalty p => some (h ++ [(c, p)])

/-!
## The notebook's search space (param_grid, from src) and sampling
-/

/-- From the source param_grid: the domain constraints of the four declared
dimensions — Integer(10, 120) for n_estimators, Real(0, 0.999) for
min_samples_split, Integer(1, 5) for max_depth (the loss dimension is
enforced by the LossKind type itself). -/
def paramGridContains (c : GBMCandidate) : Prop :=
  10 ≤ c.n_estimators ∧ c.n_estimators ≤ 120 ∧
  0 ≤ c.min_samples_split ∧ c.min_samples_split ≤ mkRat 999 1000 ∧
  1 ≤ c.max_depth ∧ c.max_depth ≤ 5

instance (c : GBMCandidate) : Decidable (paramGridContains c) := by
  unfold paramGridContains
  infer_instance

/-- Modelled from the spec: an Integer dimension is sampled uniformly within
its inclusive bounds — the raw draw is reduced modulo the domain size. -/
def sampleIntDim (low high : ℤ) (r : ℕ) : ℤ :=
  low + ((r % (high - low + 1).toNat : ℕ) : ℤ)

/-- Modelled from the spec: a Real dimension is sampled uniformly in its
bounds from a unit-interval draw. -/
def sampleRealDim (low high : ℚ) (u : ℚ) : ℚ :=
  low + u * (high - low)

/-- Modelled from the spec: a raw RNG draw mapped into the unit interval. -/
def unitFrac (r : ℕ) : ℚ :=
  mkRat ((r % 2 ^ 32 : ℕ) : ℤ) (2 ^ 32)

/-- Modelled from the spec: a Categorical dimension is sampled uniformly from
its values. -/
def sampleLoss (r : ℕ) : LossKind :=
  if r % 2 = 0 then LossKind.deviance else LossKind.exponential

/-- Modelled from the spec: sample_random over the notebook's param_grid —
each dimension is drawn independently from the seeded raw-draw stream rng. -/
def sampleCandidate (rng : ℕ → ℕ) (i : ℕ) : GBMCandidate :=
  { n_estimators := sampleIntDim 10 120 (rng (4 * i)),
    min_samples_split := sampleRealDim 0 (mkRat 999 1000) (unitFrac (rng (4 * i + 1))),
    max_depth := sampleIntDim 1 5 (rng (4 * i + 2)),
    loss := sampleLoss (rng (4 * i + 3)) }

/-- Modelled from the spec: pick the candidate with the highest acquisition
score among a starting point and a pool (random-sample-then-refine, keeping
the earlier point on ties). -/
def acqArgmax (score : GBMCandidate → ℚ) (c : GBMCandidate)
    (cs : List GBMCandidate) : GBMCandidate :=
  cs.foldl (fun b x => if score b < score x then x else b) c

/-- Modelled from the spec: the Exploiting-phase proposal — maximize the
acquisition score over a pool of candidates sampled from the space. -/
def proposeGBM (rng : ℕ → ℕ) (m : ℕ)
    (score : List (Obs GBMCandidate) → GBMCandidate → ℚ)
    (hist : List (Obs GBMCandidate)) : GBMCandidate :=
  acqArgmax (score hist) (sampleCandidate rng 0)
    ((List.range m).map (fun j => sampleCandidate rng (j + 1)))

/-!
## Expected Improvement (modelled from the spec)

The spec's closed form uses the standard Gaussian density and its cumulative
distribution function; both are embedded directly as real functions.
-/

/-- The standard Gaussian probability density. -/
noncomputable def gaussPDF (z : ℝ) : ℝ :=
  (Real.sqrt (2 * Real.pi))⁻¹ * Real.exp (-(1 / 2 : ℝ) * z ^ 2)

/-- The standard Gaussian cumulative distribution function. -/
noncomputable def gaussCDF (z : ℝ) : ℝ :=
  ∫ t in Set.Iic z, gaussPDF t

/-- Modelled from the spec: the Expected Improvement acquisition score at a
point with posterior mean and standard deviation, given the current best
observed value — std * (z * CDF z + PDF z) at the standardized improvement
when std is positive, else 0. -/
noncomputable def expectedImprovement (fbest mean std : ℝ) : ℝ :=
  if 0 < std then
    std * (((fbest - mean) / std) * gaussCDF ((fbest - mean) / std) +
           gaussPDF ((fbest - mean) / std))
  else 0

theorem bestResult_nil {α : Type} : bestResult ([] : List (Obs α)) = none := rfl

theorem bestResult_cons {α : Type} (o : Obs α) (rest : List (Obs α)) :
    bestResult (o :: rest) =
      some (match bestResult rest with
            | none => o
            | some b => if b.2 < o.2 then b else o) := rfl

/-- bestResult is none exactly on the empty history. -/
theorem bestResult_eq_none_iff {α : Type} (l : List (Obs α)) :
    bestResult l = none ↔ l = [] := by
  cases l with
  | nil => simp [bestResult]
  | cons o rest => simp [bestResult_cons]

/-- The best result is a member of the history. -/
theorem bestResult_mem {α : Type} (l : List (Obs α)) (b : Obs α)
    (h : bestResult l = some b) : b ∈ l := by
  induction l generalizing b with
  | nil => simp [bestResult] at h
  | cons o rest ih =>
    rw [bestResult_cons] at h
    cases hr : bestResult rest with
    | none => rw [hr] at h; simp_all
    | some b0 =>
      rw [hr] at h
      by_cases hlt : b0.2 < o.2
      · simp [hlt] at h
        exact List.mem_cons_of_mem o (h ▸ ih b0 hr)
      · simp [hlt] at h
        simp [h]

/-- The best result value is a lower bound on every recorded value. -/
theorem bestResult_le {α : Type} (l : List (Obs α)) (b : Obs α)
    (h : bestResult l = some b) : ∀ o ∈ l, b.2 ≤ o.2 := by
  induction l generalizing b with
  | nil => simp [bestResult] at h
  | cons o rest ih =>
    rw [bestResult_cons] at h
    cases hr : bestResult rest with
    | none =>
      rw [hr] at h
      have : rest = [] := (bestResult_eq_none_iff rest).mp hr
      subst this
      simp at h ⊢
      simp [h]
    | some b0 =>
      rw [hr] at h
      by_cases hlt : b0.2 < o.2
      · simp [hlt] at h
        subst h
        intro x hx
        rcases List.mem_cons.mp hx with rfl | hx
        · exact le_of_lt hlt
        · exact ih b0 hr x hx
      · simp [hlt] at h
        subst h
        intro x hx
        rcases List.mem_cons.mp hx with rfl | hx
        · exact le_refl _
        · exact le_trans (not_lt.mp hlt) (ih b0 hr x hx)

/-- The best result sits at an index before which every value is strictly
larger: ties resolve to the earliest occurrence. -/
theorem bestResult_earliest {α : Type} (l : List (Obs α)) (b : Obs α)
    (h : bestResult l = some b) :
    ∃ i, ∃ hi : i < l.length, l.get ⟨i, hi⟩ = b ∧
      ∀ j, ∀ hj : j < i, b.2 < (l.get ⟨j, lt_trans hj hi⟩).2 := by
  induction l generalizing b with
  | nil => simp [bestResult] at h
  | cons o rest ih =>
    rw [bestResult_cons] at h
    cases hr : bestResult rest with
    | none =>
      rw [hr] at h
      simp at h
      refine ⟨0, by simp, ?_, ?_⟩
      · simpa using h
      · intro j hj; omega
    | some b0 =>
      rw [hr] at h
      by_cases hlt : b0.2 < o.2
      · simp [hlt] at h
        subst h
        obtain ⟨i, hi, hget, hbefore⟩ := ih b0 hr
        refine ⟨i + 1, by simpa using Nat.succ_lt_succ hi, by simpa using hget, ?_⟩
        intro j hj
        cases j with
        | zero => simpa using hlt
        | succ j0 =>
          have hj0 : j0 < i := by omega
          simpa using hbefore j0 hj0
      · simp [hlt] at h
        subst h
        refine ⟨0, by simp, by simp, ?_⟩
        intro j hj; omega

theorem runHistory_length {α : Type} (ni : ℕ) (sample : ℕ → α)
    (propose : List (Obs α) → α) (f : α → ℚ) (n : ℕ) :
    (runHistory ni sample propose f n).length = n := by
  induction n with
  | zero => rfl
  | succ n ih => simp [runHistory, ih]

/-- Each step extends the previous history by exactly one observation. -/
theorem runHistory_succ {α : Type} (ni : ℕ) (sample : ℕ → α)
    (propose : List (Obs α) → α) (f : α → ℚ) (n : ℕ) :
    runHistory ni sample propose f (n + 1) =
      runHistory ni sample propose f n ++
        [(nextCandidate ni sample propose (runHistory ni sample propose f n),
          f (nextCandidate ni sample propose (runHistory ni sample propose f n)))] := rfl

/-- Longer runs extend shorter ones: the history is append-only. -/
theorem runHistory_extends {α : Type} (ni : ℕ) (sample : ℕ → α)
    (propose : List (Obs α) → α) (f : α → ℚ) {m n : ℕ} (h : m ≤ n) :
    ∃ t, runHistory ni sample propose f n = runHistory ni sample propose f m ++ t := by
  induction n with
  | zero =>
    have : m = 0 := Nat.le_zero.mp h
    subst this
    exact ⟨[], rfl⟩
  | succ n ih =>
    rcases Nat.lt_or_ge m (n + 1) with hlt | hge
    · obtain ⟨t, ht⟩ := ih (Nat.lt_succ_iff.mp hlt)
      exact ⟨t ++ _, by rw [runHistory_succ, ht, List.append_assoc]⟩
    · have : m = n + 1 := le_antisymm h hge
      subst this
      exact ⟨[], by simp⟩

/-- The history lists the step entries in order. -/
theorem runHistory_eq_map {α : Type} (ni : ℕ) (sample : ℕ → α)
    (propose : List (Obs α) → α) (f : α → ℚ) (n : ℕ) :
    runHistory ni sample propose f n =
      (List.range n).map (runEntry ni sample propose f) := by
  induction n with
  | zero => rfl
  | succ n ih =>
    rw [runHistory_succ, List.range_succ, List.map_append, ih]
    simp only [List.map_cons, List.map_nil, runEntry]
    rw [ih]

/-- While fewer than ni observations exist, the appended entry is the random
sample for that index. -/
theorem runEntry_exploring {α : Type} (ni : ℕ) (sample : ℕ → α)
    (propose : List (Obs α) → α) (f : α → ℚ) (k : ℕ) (hk : k < ni) :
    runEntry ni sample propose f k = (sample k, f (sample k)) := by
  simp [runEntry, nextCandidate, runHistory_length, hk]

/-- A nonempty history always has a best result. -/
theorem bestResult_isSome {α : Type} (l : List (Obs α)) (h : l ≠ []) :
    ∃ b, bestResult l = some b := by
  cases hb : bestResult l with
  | none => exact absurd ((bestResult_eq_none_iff l).mp hb) h
  | some b => exact ⟨b, rfl⟩

/-- Extending a history can only improve (never worsen) the best value. -/
theorem bestResult_append_le {α : Type} (l t : List (Obs α)) (b : Obs α)
    (h : bestResult l = some b) :
    ∃ b2, bestResult (l ++ t) = some b2 ∧ b2.2 ≤ b.2 := by
  have hl : l ≠ [] := by
    intro hnil; subst hnil; simp [bestResult] at h
  have hlt : l ++ t ≠ [] := by
    simp [hl]
  obtain ⟨b2, hb2⟩ := bestResult_isSome (l ++ t) hlt
  refine ⟨b2, hb2, ?_⟩
  exact bestResult_le (l ++ t) b2 hb2 b (List.mem_append_left t (bestResult_mem l b h))

/-- C1: For every run with a non-empty Observation history, the returned
BestResult is an Observation from the history whose value is less than or
equal to the value of every other recorded Observation, and when several
Observations share that minimal value the BestResult is the
earliest-occurring one. -/
theorem gpMinimize_best_is_min_earliest {α : Type} (cfg : RunConfig)
    (sample : ℕ → α) (propose : List (Obs α) → α) (f : α → ℚ)
    (hne : (gpMinimize cfg sample propose f).1 ≠ []) :
    ∃ b, (gpMinimize cfg sample propose f).2 = some b ∧
      b ∈ (gpMinimize cfg sample propose f).1 ∧
      (∀ o ∈ (gpMinimize cfg sample propose f).1, b.2 ≤ o.2) ∧
      ∃ i, ∃ hi : i < (gpMinimize cfg sample propose f).1.length,
        (gpMinimize cfg sample propose f).1.get ⟨i, hi⟩ = b ∧
        ∀ j, ∀ hj : j < i,
          b.2 < ((gpMinimize cfg sample propose f).1.get ⟨j, lt_trans hj hi⟩).2 := by
  obtain ⟨b, hb⟩ := bestResult_isSome _ hne
  exact ⟨b, hb, bestResult_mem _ b hb, bestResult_le _ b hb, bestResult_earliest _ b hb⟩

/-- C1 witness: a concrete two-evaluation run. -/
theorem gpMinimize_best_is_min_earliest_witness :
    (gpMinimize ⟨1, 2⟩ (fun i => (i : ℚ)) (fun h => (h.length : ℚ)) (fun c => c)).1 ≠ [] ∧
    (∃ b, (gpMinimize ⟨1, 2⟩ (fun i => (i : ℚ)) (fun h => (h.length : ℚ)) (fun c => c)).2 = some b ∧
      b ∈ (gpMinimize ⟨1, 2⟩ (fun i => (i : ℚ)) (fun h => (h.length : ℚ)) (fun c => c)).1 ∧
      (∀ o ∈ (gpMinimize ⟨1, 2⟩ (fun i => (i : ℚ)) (fun h => (h.length : ℚ)) (fun c => c)).1, b.2 ≤ o.2) ∧
      ∃ i, ∃ hi : i < (gpMinimize ⟨1, 2⟩ (fun i => (i : ℚ)) (fun h => (h.length : ℚ)) (fun c => c)).1.length,
        (gpMinimize ⟨1, 2⟩ (fun i => (i : ℚ)) (fun h => (h.length : ℚ)) (fun c => c)).1.get ⟨i, hi⟩ = b ∧
        ∀ j, ∀ hj : j < i,
          b.2 < ((gpMinimize ⟨1, 2⟩ (fun i => (i : ℚ)) (fun h => (h.length : ℚ)) (fun c => c)).1.get ⟨j, lt_trans hj hi⟩).2) :=
  ⟨by decide, gpMinimize_best_is_min_earliest ⟨1, 2⟩ _ _ _ (by decide)⟩

/-- C2: the run terminates exactly when the evaluation count reaches n_calls:
the returned history has exactly n_calls entries, the n_initial_points random
evaluations occupy the first slots of that same history (they count toward
the total, so the total number of objective evaluations is n_calls, not
n_initial_points + n_calls), and in the notebook configuration (10 initial
points, n_calls = 50) the total is 50. -/
theorem gpMinimize_call_budget {α : Type} (cfg : RunConfig) (sample : ℕ → α)
    (propose : List (Obs α) → α) (f : α → ℚ) :
    (gpMinimize cfg sample propose f).1.length = cfg.n_calls ∧
    (∀ k, k < cfg.n_initial_points →
      ∀ hk : k < (gpMinimize cfg sample propose f).1.length,
        (gpMinimize cfg sample propose f).1.get ⟨k, hk⟩ = (sample k, f (sample k))) ∧
    (gpMinimize ⟨10, 50⟩ sample propose f).1.length = 50 := by
  refine ⟨by simp [gpMinimize, runHistory_length], ?_, by simp [gpMinimize, runHistory_length]⟩
  intro k hk hkl
  have hmap := runHistory_eq_map cfg.n_initial_points sample propose f cfg.n_calls
  simp only [gpMinimize] at hkl ⊢
  rw [List.get_eq_getElem, List.getElem_of_eq hmap hkl]
  simp only [List.getElem_map, List.getElem_range]
  exact runEntry_exploring _ _ _ _ _ hk

/-- C2 witness: a concrete run with one initial point and budget two. -/
theorem gpMinimize_call_budget_witness :
    (gpMinimize ⟨1, 2⟩ (fun i => ((i : ℚ), 0)) (fun h => ((h.length : ℚ), 1))
      (fun c => c.1 + c.2)).1.length = 2 ∧
    (gpMinimize ⟨1, 2⟩ (fun i => ((i : ℚ), 0)) (fun h => ((h.length : ℚ), 1))
      (fun c => c.1 + c.2)).1.get ⟨0, by decide⟩ = (((0 : ℚ), (0 : ℚ)), (0 : ℚ)) :=
  ⟨(gpMinimize_call_budget ⟨1, 2⟩ _ _ _).1,
   by simpa using (gpMinimize_call_budget ⟨1, 2⟩ (fun i => ((i : ℚ), 0))
     (fun h => ((h.length : ℚ), 1)) (fun c => c.1 + c.2)).2.1 0 (by decide) (by decide)⟩

/-- C5: with n_initial_points ≥ n_calls the driver never enters the
Exploiting state: every evaluation happens in the Exploring phase, the whole
history consists of the random samples, and the result does not depend on the
model-guided proposal function at all. -/
theorem gpMinimize_never_exploiting {α : Type} (cfg : RunConfig) (sample : ℕ → α)
    (propose : List (Obs α) → α) (f : α → ℚ)
    (h : cfg.n_initial_points ≥ cfg.n_calls) :
    (∀ k, k < cfg.n_calls → phaseAt cfg.n_initial_points k = Phase.Exploring) ∧
    (gpMinimize cfg sample propose f).1 =
      (List.range cfg.n_calls).map (fun k => (sample k, f (sample k))) ∧
    ∀ propose2 : List (Obs α) → α,
      (gpMinimize cfg sample propose2 f).1 = (gpMinimize cfg sample propose f).1 := by
  have hmapgen : ∀ propose0 : List (Obs α) → α,
      (gpMinimize cfg sample propose0 f).1 =
        (List.range cfg.n_calls).map (fun k => (sample k, f (sample k))) := by
    intro propose0
    simp only [gpMinimize]
    rw [runHistory_eq_map]
    refine List.map_congr_left ?_
    intro k hkmem
    have hk : k < cfg.n_initial_points :=
      lt_of_lt_of_le (List.mem_range.mp hkmem) h
    exact runEntry_exploring _ _ _ _ _ hk
  refine ⟨?_, hmapgen propose, ?_⟩
  · intro k hk
    have : k < cfg.n_initial_points := lt_of_lt_of_le hk h
    simp [phaseAt, this]
  · intro propose2
    rw [hmapgen propose2, hmapgen propose]

/-- C5 witness: five initial points with budget five. -/
theorem gpMinimize_never_exploiting_witness :
    (5 : ℕ) ≥ (5 : ℕ) ∧
    ((∀ k, k < (5 : ℕ) → phaseAt 5 k = Phase.Exploring) ∧
     (gpMinimize ⟨5, 5⟩ (fun i => (i : ℚ)) (fun h => (h.length : ℚ)) (fun c => c)).1 =
       (List.range 5).map (fun k => ((k : ℚ), ((k : ℚ) : ℚ))) ∧
     ∀ propose2 : List (Obs ℚ) → ℚ,
       (gpMinimize ⟨5, 5⟩ (fun i => (i : ℚ)) propose2 (fun c => c)).1 =
         (gpMinimize ⟨5, 5⟩ (fun i => (i : ℚ)) (fun h => (h.length : ℚ)) (fun c => c)).1) :=
  ⟨le_refl 5, gpMinimize_never_exploiting ⟨5, 5⟩ _ _ _ (le_refl 5)⟩

/-- C6: with the same search space, deterministic objective and fixed seed
(the same sample, propose and f functions), a run with a larger budget never
returns a worse BestResult value: best-so-far is non-increasing in the number
of evaluations. -/
theorem gpMinimize_best_monotone_in_budget {α : Type} (ni n₁ n₂ : ℕ)
    (sample : ℕ → α) (propose : List (Obs α) → α) (f : α → ℚ)
    (h12 : n₁ ≤ n₂) (b₁ b₂ : Obs α)
    (hb1 : (gpMinimize ⟨ni, n₁⟩ sample propose f).2 = some b₁)
    (hb2 : (gpMinimize ⟨ni, n₂⟩ sample propose f).2 = some b₂) :
    b₂.2 ≤ b₁.2 := by
  simp only [gpMinimize] at hb1 hb2
  obtain ⟨t, ht⟩ := runHistory_extends ni sample propose f h12
  rw [ht] at hb2
  obtain ⟨b2', hb2', hle⟩ := bestResult_append_le _ t b₁ hb1
  rw [hb2'] at hb2
  injection hb2 with hb2
  exact hb2 ▸ hle

/-- C6 witness: budgets one and two on a concrete run. -/
theorem gpMinimize_best_monotone_in_budget_witness :
    (1 : ℕ) ≤ (2 : ℕ) ∧
    (gpMinimize ⟨1, 1⟩ (fun i => (i : ℚ)) (fun h => (h.length : ℚ))
      (fun c => c)).2 = some ((0 : ℚ), (0 : ℚ)) ∧
    (gpMinimize ⟨1, 2⟩ (fun i => (i : ℚ)) (fun h => (h.length : ℚ))
      (fun c => c)).2 = some ((0 : ℚ), (0 : ℚ)) ∧
    ((0 : ℚ), (0 : ℚ)).2 ≤ ((0 : ℚ), (0 : ℚ)).2 :=
  ⟨by decide, by decide, by decide,
   gpMinimize_best_monotone_in_budget 1 1 2 (fun i => (i : ℚ))
     (fun h => (h.length : ℚ)) (fun c => c) (by decide) _ _ (by decide) (by decide)⟩

/-- C7: with a fixed seed (the same sample and propose functions) and a
deterministic objective (the evaluated value does not depend on the hidden
state), two executions of the same run configuration produce identical
Observation histories and identical BestResults, whatever hidden states they
start from. -/
theorem runHistoryS_deterministic {α σ : Type} (ni : ℕ) (sample : ℕ → α)
    (propose : List (Obs α) → α) (eval : σ → α → σ × ℚ)
    (hdet : ∀ s s' c, (eval s c).2 = (eval s' c).2) (n : ℕ) (s₁ s₂ : σ) :
    (runHistoryS ni sample propose eval n s₁).2 =
      (runHistoryS ni sample propose eval n s₂).2 ∧
    bestResult (runHistoryS ni sample propose eval n s₁).2 =
      bestResult (runHistoryS ni sample propose eval n s₂).2 := by
  have hh : ∀ m : ℕ, (runHistoryS ni sample propose eval m s₁).2 =
      (runHistoryS ni sample propose eval m s₂).2 := by
    intro m
    induction m with
    | zero => rfl
    | succ m ih =>
      simp only [runHistoryS]
      rw [ih, hdet (runHistoryS ni sample propose eval m s₁).1
        (runHistoryS ni sample propose eval m s₂).1]
  exact ⟨hh n, by rw [hh n]⟩

/-- C7 witness: a counter state that the evaluated value ignores. -/
theorem runHistoryS_deterministic_witness :
    (runHistoryS 1 (fun i => (i : ℚ)) (fun h => (h.length : ℚ))
      (fun (s : ℕ) c => (s + 1, c)) 2 0).2 =
      (runHistoryS 1 (fun i => (i : ℚ)) (fun h => (h.length : ℚ))
        (fun (s : ℕ) c => (s + 1, c)) 2 5).2 ∧
    bestResult (runHistoryS 1 (fun i => (i : ℚ)) (fun h => (h.length : ℚ))
      (fun (s : ℕ) c => (s + 1, c)) 2 0).2 =
      bestResult (runHistoryS 1 (fun i => (i : ℚ)) (fun h => (h.length : ℚ))
        (fun (s : ℕ) c => (s + 1, c)) 2 5).2 :=
  runHistoryS_deterministic 1 _ _ _ (fun _ _ _ => rfl) 2 0 5

theorem set_params_random_state (s : GBMState) (c : GBMCandidate) :
    (set_params s c).random_state = s.random_state := rfl

/-- set_params forgets everything about the previous state except
random_state. -/
theorem set_params_congr (s₁ s₂ : GBMState) (c : GBMCandidate)
    (h : s₁.random_state = s₂.random_state) :
    set_params s₁ c = set_params s₂ c := by
  simp [set_params, h]

/-- The estimator's random_state survives any number of evaluations. -/
theorem runHistoryS_random_state (cv : GBMState → List ℚ) (ni : ℕ)
    (sample : ℕ → GBMCandidate) (propose : List (Obs GBMCandidate) → GBMCandidate)
    (n : ℕ) (s : GBMState) :
    (runHistoryS ni sample propose (objectiveS cv) n s).1.random_state =
      s.random_state := by
  induction n with
  | zero => rfl
  | succ n ih => simp only [runHistoryS, objectiveS]; rw [set_params_random_state, ih]

/-- C10: every evaluation mutates the single shared estimator in place via
set_params, so after a run the estimator holds exactly the hyperparameters of
the last evaluated candidate with random_state untouched (final state equals
set_params of the last candidate over the initial state); a single evaluation
never changes random_state; and the last evaluated candidate need not be the
best one the run returns. -/
theorem gbm_holds_last_candidate (cv : GBMState → List ℚ) (ni : ℕ)
    (sample : ℕ → GBMCandidate) (propose : List (Obs GBMCandidate) → GBMCandidate)
    (n : ℕ) (s : GBMState) :
    (∀ c, ((runHistoryS ni sample propose (objectiveS cv) n s).2.map Prod.fst).getLast? =
        some c →
       (runHistoryS ni sample propose (objectiveS cv) n s).1 = set_params s c) ∧
    (∀ s' c, (objectiveS cv s' c).1.random_state = s'.random_state) ∧
    (∃ (l : List (Obs GBMCandidate)) (o b : Obs GBMCandidate),
       l.getLast? = some o ∧ bestResult l = some b ∧ o.1 ≠ b.1) := by
  refine ⟨?_, fun s' c => rfl, ?_⟩
  · induction n with
    | zero => intro c hc; simp [runHistoryS] at hc
    | succ n ih =>
      intro c hc
      simp only [runHistoryS, List.map_append, List.map_cons, List.map_nil,
        List.getLast?_concat, Option.some.injEq] at hc
      subst hc
      simp only [runHistoryS, objectiveS]
      exact set_params_congr _ _ _ (runHistoryS_random_state cv ni sample propose n s)
  · refine ⟨[(⟨10, 0, 1, LossKind.deviance⟩, 0), (⟨11, 0, 1, LossKind.deviance⟩, 1)],
      (⟨11, 0, 1, LossKind.deviance⟩, 1), (⟨10, 0, 1, LossKind.deviance⟩, 0),
      by decide, by decide, by decide⟩

/-- C10 witness: a two-evaluation run in which the estimator ends holding the
proposal candidate. -/
theorem gbm_holds_last_candidate_witness :
    ((runHistoryS 1 (fun _ => (⟨10, 0, 1, LossKind.deviance⟩ : GBMCandidate))
        (fun _ => (⟨11, 0, 5, LossKind.exponential⟩ : GBMCandidate))
        (objectiveS (fun _ => [1, 1, 1])) 2 gbmInit).2.map Prod.fst).getLast? =
      some (⟨11, 0, 5, LossKind.exponential⟩ : GBMCandidate) ∧
    (runHistoryS 1 (fun _ => (⟨10, 0, 1, LossKind.deviance⟩ : GBMCandidate))
        (fun _ => (⟨11, 0, 5, LossKind.exponential⟩ : GBMCandidate))
        (objectiveS (fun _ => [1, 1, 1])) 2 gbmInit).1 =
      set_params gbmInit (⟨11, 0, 5, LossKind.exponential⟩ : GBMCandidate) :=
  ⟨by decide,
   (gbm_holds_last_candidate (fun _ => [1, 1, 1]) 1 _ _ 2 gbmInit).1 _ (by decide)⟩

/-- C9: a failing objective is handled by the configured policy and never
silently swallowed: under penalty-and-continue the run always completes with
n_calls entries and every entry either carries the objective's own value or
marks a failure with exactly the configured penalty value; under fatal-abort
a completed run contains only successful evaluations (any failure aborts). -/
theorem objective_failure_policy {α : Type} (ni : ℕ) (sample : ℕ → α)
    (propose : List (Obs α) → α) (f : α → Option ℚ) :
    (∀ p n, ∃ h, runHistoryE ni sample propose f (FailPolicy.penalty p) n = some h ∧
       h.length = n ∧
       ∀ o ∈ h, f o.1 = some o.2 ∨ (f o.1 = none ∧ o.2 = p)) ∧
    (∀ n h, runHistoryE ni sample propose f FailPolicy.fatal n = some h →
       ∀ o ∈ h, f o.1 = some o.2) := by
  constructor
  · intro p n
    induction n with
    | zero => exact ⟨[], rfl, rfl, by simp⟩
    | succ n ih =>
      obtain ⟨h, hrun, hlen, hmem⟩ := ih
      simp only [runHistoryE, hrun]
      cases hfc : f (nextCandidate ni sample propose h) with
      | none =>
        refine ⟨h ++ [(nextCandidate ni sample propose h, p)], rfl, by simp [hlen], ?_⟩
        intro o ho
        rcases List.mem_append.mp ho with ho | ho
        · exact hmem o ho
        · simp at ho
          subst ho
          exact Or.inr ⟨hfc, rfl⟩
      | some v =>
        refine ⟨h ++ [(nextCandidate ni sample propose h, v)], rfl, by simp [hlen], ?_⟩
        intro o ho
        rcases List.mem_append.mp ho with ho | ho
        · exact hmem o ho
        · simp at ho
          subst ho
          exact Or.inl hfc
  · intro n
    induction n with
    | zero =>
      intro h hrun
      simp only [runHistoryE, Option.some.injEq] at hrun
      subst hrun
      simp
    | succ n ih =>
      intro h hrun
      cases hprev : runHistoryE ni sample propose f FailPolicy.fatal n with
      | none => simp only [runHistoryE, hprev] at hrun; exact absurd hrun (by simp)
      | some h0 =>
        simp only [runHistoryE, hprev] at hrun
        cases hfc : f (nextCandidate ni sample propose h0) with
        | none => simp only [hfc] at hrun; exact absurd hrun (by simp)
        | some v =>
          simp only [hfc, Option.some.injEq] at hrun
          subst hrun
          intro o ho
          rcases List.mem_append.mp ho with ho | ho
          · exact ih h0 hprev o ho
          · simp at ho
            subst ho
            exact hfc

/-- C9 witness: objective failing exactly on candidate 1, budget two, penalty
99 recorded for the failing candidate; and the fatal policy on a failure-free
history. -/
theorem objective_failure_policy_witness :
    (∃ h, runHistoryE 2 (fun i => i) (fun h => h.length)
        (fun c => if c = 1 then none else some (c : ℚ)) (FailPolicy.penalty 99) 2 = some h ∧
       h.length = 2 ∧
       ∀ o ∈ h, (fun c => if c = 1 then none else some ((c : ℕ) : ℚ)) o.1 = some o.2 ∨
         ((fun c => if c = 1 then none else some ((c : ℕ) : ℚ)) o.1 = none ∧ o.2 = 99)) ∧
    (∀ h, runHistoryE 2 (fun i => i) (fun h => h.length)
        (fun c => if c = 1 then none else some ((c : ℕ) : ℚ)) FailPolicy.fatal 1 = some h →
       ∀ o ∈ h, (fun c => if c = 1 then none else some ((c : ℕ) : ℚ)) o.1 = some o.2) :=
  ⟨(objective_failure_policy 2 (fun i => i) (fun h => h.length)
      (fun c => if c = 1 then none else some ((c : ℕ) : ℚ))).1 99 2,
   fun h => (objective_failure_policy 2 (fun i => i) (fun h => h.length)
      (fun c => if c = 1 then none else some ((c : ℕ) : ℚ))).2 1 h⟩

/-- A list of values in the unit interval has a sum between 0 and its
length. -/
theorem sum_bounds_of_unit (l : List ℚ) (h : ∀ x ∈ l, 0 ≤ x ∧ x ≤ 1) :
    0 ≤ l.sum ∧ l.sum ≤ (l.length : ℚ) := by
  induction l with
  | nil => simp
  | cons a t ih =>
    have ha := h a (List.mem_cons_self a t)
    have ht := ih (fun x hx => h x (List.mem_cons_of_mem a hx))
    constructor
    · simpa using add_nonneg ha.1 ht.1
    · simp only [List.sum_cons, List.length_cons, Nat.cast_succ]
      calc a + t.sum ≤ 1 + (t.length : ℚ) := add_le_add ha.2 ht.2
        _ = (t.length : ℚ) + 1 := by ring

/-- The negated mean of unit-interval scores lies in the interval from -1
to 0. -/
theorem objectiveValue_range (scores : List ℚ) (hne : scores ≠ [])
    (h : ∀ x ∈ scores, 0 ≤ x ∧ x ≤ 1) :
    -1 ≤ objectiveValue scores ∧ objectiveValue scores ≤ 0 := by
  have hlen : 0 < (scores.length : ℚ) := by
    have : 0 < scores.length := List.length_pos.mpr hne
    exact_mod_cast this
  obtain ⟨hs0, hs1⟩ := sum_bounds_of_unit scores h
  have hmean0 : 0 ≤ scores.sum / (scores.length : ℚ) := div_nonneg hs0 (le_of_lt hlen)
  have hmean1 : scores.sum / (scores.length : ℚ) ≤ 1 := (div_le_one hlen).mpr hs1
  constructor
  · simpa [objectiveValue] using neg_le_neg hmean1
  · simpa [objectiveValue] using neg_nonpos.mpr hmean0

/-- Every value a run of the stateful notebook objective records is the
negated mean of some cross-validation score list. -/
theorem runHistoryS_value_shape (cv : GBMState → List ℚ) (ni : ℕ)
    (sample : ℕ → GBMCandidate) (propose : List (Obs GBMCandidate) → GBMCandidate)
    (n : ℕ) (s : GBMState) :
    ∀ o ∈ (runHistoryS ni sample propose (objectiveS cv) n s).2,
      ∃ st : GBMState, o.2 = objectiveValue (cv st) := by
  induction n with
  | zero => simp [runHistoryS]
  | succ n ih =>
    intro o ho
    simp only [runHistoryS] at ho
    rcases List.mem_append.mp ho with ho | ho
    · exact ih o ho
    · simp only [List.mem_singleton] at ho
      subst ho
      exact ⟨_, rfl⟩

/-- C8: the notebook objective returns the negation of the mean 3-fold
cross-validation accuracy of the reconfigured classifier; assuming each fold
accuracy lies in the unit interval (and cv = 3 folds), every value recorded
in the Observation history is a finite scalar between -1 and 0, the
BestResult value as well, and minimizing the objective maximizes the mean
accuracy (the value is antitone in it). -/
theorem objective_neg_mean_accuracy_range (cv : GBMState → List ℚ)
    (hlen : ∀ st, (cv st).length = 3)
    (hacc : ∀ st, ∀ x ∈ cv st, 0 ≤ x ∧ x ≤ 1)
    (ni : ℕ) (sample : ℕ → GBMCandidate)
    (propose : List (Obs GBMCandidate) → GBMCandidate) (n : ℕ) (s : GBMState) :
    (∀ st, objectiveValue (cv st) = -((cv st).sum / (((cv st).length : ℕ) : ℚ))) ∧
    (∀ o ∈ (runHistoryS ni sample propose (objectiveS cv) n s).2,
       -1 ≤ o.2 ∧ o.2 ≤ 0) ∧
    (∀ b, bestResult (runHistoryS ni sample propose (objectiveS cv) n s).2 = some b →
       -1 ≤ b.2 ∧ b.2 ≤ 0) ∧
    (∀ u v : List ℚ, u.sum / ((u.length : ℕ) : ℚ) ≤ v.sum / ((v.length : ℕ) : ℚ) →
       objectiveValue v ≤ objectiveValue u) := by
  have hrange : ∀ st : GBMState,
      -1 ≤ objectiveValue (cv st) ∧ objectiveValue (cv st) ≤ 0 := by
    intro st
    refine objectiveValue_range (cv st) ?_ (hacc st)
    intro hnil
    have := hlen st
    rw [hnil] at this
    simp at this
  have hhist : ∀ o ∈ (runHistoryS ni sample propose (objectiveS cv) n s).2,
      -1 ≤ o.2 ∧ o.2 ≤ 0 := by
    intro o ho
    obtain ⟨st, hst⟩ := runHistoryS_value_shape cv ni sample propose n s o ho
    rw [hst]
    exact hrange st
  refine ⟨fun st => rfl, hhist, ?_, ?_⟩
  · intro b hb
    exact hhist b (bestResult_mem _ b hb)
  · intro u v huv
    simpa [objectiveValue] using neg_le_neg huv

/-- C8 witness: constant fold accuracies 1, 1, 1 over a two-evaluation run. -/
theorem objective_neg_mean_accuracy_range_witness :
    (∀ o ∈ (runHistoryS 1 (fun _ => (⟨10, 0, 1, LossKind.deviance⟩ : GBMCandidate))
        (fun _ => (⟨11, 0, 5, LossKind.exponential⟩ : GBMCandidate))
        (objectiveS (fun _ => [1, 1, 1])) 2 gbmInit).2, -1 ≤ o.2 ∧ o.2 ≤ 0) ∧
    (∀ b, bestResult (runHistoryS 1 (fun _ => (⟨10, 0, 1, LossKind.deviance⟩ : GBMCandidate))
        (fun _ => (⟨11, 0, 5, LossKind.exponential⟩ : GBMCandidate))
        (objectiveS (fun _ => [1, 1, 1])) 2 gbmInit).2 = some b →
       -1 ≤ b.2 ∧ b.2 ≤ 0) :=
  ⟨(objective_neg_mean_accuracy_range (fun _ => ([1, 1, 1] : List ℚ)) (fun _ => rfl)
      (by intro st; show ∀ x ∈ ([1, 1, 1] : List ℚ), 0 ≤ x ∧ x ≤ 1; decide)
      1 (fun _ => (⟨10, 0, 1, LossKind.deviance⟩ : GBMCandidate))
      (fun _ => (⟨11, 0, 5, LossKind.exponential⟩ : GBMCandidate)) 2 gbmInit).2.1,
   (objective_neg_mean_accuracy_range (fun _ => ([1, 1, 1] : List ℚ)) (fun _ => rfl)
      (by intro st; show ∀ x ∈ ([1, 1, 1] : List ℚ), 0 ≤ x ∧ x ≤ 1; decide)
      1 (fun _ => (⟨10, 0, 1, LossKind.deviance⟩ : GBMCandidate))
      (fun _ => (⟨11, 0, 5, LossKind.exponential⟩ : GBMCandidate)) 2 gbmInit).2.2.1⟩

/-- An Integer dimension sample stays within its inclusive bounds. -/
theorem sampleIntDim_bounds (low high : ℤ) (r : ℕ) (hlh : low ≤ high) :
    low ≤ sampleIntDim low high r ∧ sampleIntDim low high r ≤ high := by
  unfold sampleIntDim
  have hpos : (0 : ℤ) < high - low + 1 := by omega
  have hmod : (r % (high - low + 1).toNat : ℕ) < (high - low + 1).toNat :=
    Nat.mod_lt r (by omega)
  have hcast : ((r % (high - low + 1).toNat : ℕ) : ℤ) < high - low + 1 := by
    have := Int.ofNat_lt.mpr hmod
    omega
  constructor
  · have : (0 : ℤ) ≤ ((r % (high - low + 1).toNat : ℕ) : ℤ) := Int.ofNat_nonneg _
    omega
  · omega

/-- A unit-interval draw lies between 0 and 1. -/
theorem unitFrac_bounds (r : ℕ) : 0 ≤ unitFrac r ∧ unitFrac r ≤ 1 := by
  unfold unitFrac
  rw [Rat.mkRat_eq_div]
  have hd : (0 : ℚ) < ((2 ^ 32 : ℕ) : ℚ) := by positivity
  have hr : (0 : ℚ) ≤ (((r % 2 ^ 32 : ℕ) : ℤ) : ℚ) := by positivity
  constructor
  · exact div_nonneg hr (le_of_lt hd)
  · rw [div_le_one hd]
    have : (r % 2 ^ 32 : ℕ) ≤ 2 ^ 32 := le_of_lt (Nat.mod_lt r (by positivity))
    exact_mod_cast this

/-- A Real dimension sample from a unit draw stays within its bounds. -/
theorem sampleRealDim_bounds (low high : ℚ) (u : ℚ) (hlh : low ≤ high)
    (hu : 0 ≤ u ∧ u ≤ 1) :
    low ≤ sampleRealDim low high u ∧ sampleRealDim low high u ≤ high := by
  unfold sampleRealDim
  have h0 : 0 ≤ high - low := by linarith
  constructor
  · nlinarith [mul_nonneg hu.1 h0]
  · nlinarith [mul_le_of_le_one_left h0 hu.2]

/-- Random sampling never leaves the declared search space. -/
theorem sampleCandidate_contains (rng : ℕ → ℕ) (i : ℕ) :
    paramGridContains (sampleCandidate rng i) := by
  unfold paramGridContains sampleCandidate
  have h1 := sampleIntDim_bounds 10 120 (rng (4 * i)) (by omega)
  have h2 := sampleRealDim_bounds 0 (mkRat 999 1000) (unitFrac (rng (4 * i + 1)))
    (by rw [Rat.mkRat_eq_div]; positivity) (unitFrac_bounds (rng (4 * i + 1)))
  have h3 := sampleIntDim_bounds 1 5 (rng (4 * i + 2)) (by omega)
  exact ⟨h1.1, h1.2, h2.1, h2.2, h3.1, h3.2⟩

/-- The acquisition argmax is one of the scored candidates. -/
theorem acqArgmax_mem (score : GBMCandidate → ℚ) (c : GBMCandidate)
    (cs : List GBMCandidate) :
    acqArgmax score c cs = c ∨ acqArgmax score c cs ∈ cs := by
  induction cs generalizing c with
  | nil => exact Or.inl rfl
  | cons x t ih =>
    unfold acqArgmax
    simp only [List.foldl_cons]
    by_cases hlt : score c < score x
    · simp only [if_pos hlt]
      rcases ih x with h | h
      · exact Or.inr (by rw [acqArgmax] at h; simp [h])
      · exact Or.inr (List.mem_cons_of_mem x (by rw [acqArgmax] at h; exact h))
    · simp only [if_neg hlt]
      rcases ih c with h | h
      · exact Or.inl (by rw [acqArgmax] at h; exact h)
      · exact Or.inr (List.mem_cons_of_mem x (by rw [acqArgmax] at h; exact h))

/-- The acquisition argmax scores at least as high as every scored
candidate. -/
theorem acqArgmax_maximal (score : GBMCandidate → ℚ) (c : GBMCandidate)
    (cs : List GBMCandidate) :
    score c ≤ score (acqArgmax score c cs) ∧
    ∀ x ∈ cs, score x ≤ score (acqArgmax score c cs) := by
  induction cs generalizing c with
  | nil => exact ⟨le_refl _, by simp⟩
  | cons x t ih =>
    unfold acqArgmax
    simp only [List.foldl_cons]
    by_cases hlt : score c < score x
    · simp only [if_pos hlt]
      obtain ⟨hstart, hall⟩ := ih x
      refine ⟨le_trans (le_of_lt hlt) hstart, ?_⟩
      intro y hy
      rcases List.mem_cons.mp hy with rfl | hy
      · exact hstart
      · exact hall y hy
    · simp only [if_neg hlt]
      obtain ⟨hstart, hall⟩ := ih c
      refine ⟨hstart, ?_⟩
      intro y hy
      rcases List.mem_cons.mp hy with rfl | hy
      · exact le_trans (not_lt.mp hlt) hstart
      · exact hall y hy

/-- The proposal only ever returns points sampled from the space. -/
theorem proposeGBM_contains (rng : ℕ → ℕ) (m : ℕ)
    (score : List (Obs GBMCandidate) → GBMCandidate → ℚ)
    (hist : List (Obs GBMCandidate)) :
    paramGridContains (proposeGBM rng m score hist) := by
  unfold proposeGBM
  rcases acqArgmax_mem (score hist) (sampleCandidate rng 0)
      ((List.range m).map (fun j => sampleCandidate rng (j + 1))) with h | h
  · rw [h]; exact sampleCandidate_contains rng 0
  · obtain ⟨j, _, hj⟩ := List.mem_map.mp h
    rw [← hj]; exact sampleCandidate_contains rng (j + 1)

/-- Every candidate a run evaluates comes from sample_random or from the
proposal, so any property of both holds along the whole history. -/
theorem runHistory_candidates {α : Type} (P : α → Prop) (ni : ℕ)
    (sample : ℕ → α) (propose : List (Obs α) → α) (f : α → ℚ) (n : ℕ)
    (hs : ∀ i, P (sample i)) (hp : ∀ h, P (propose h)) :
    ∀ o ∈ runHistory ni sample propose f n, P o.1 := by
  induction n with
  | zero => simp [runHistory]
  | succ n ih =>
    intro o ho
    rw [runHistory_succ] at ho
    rcases List.mem_append.mp ho with ho | ho
    · exact ih o ho
    · simp only [List.mem_singleton] at ho
      subst ho
      unfold nextCandidate
      by_cases hl : (runHistory ni sample propose f n).length < ni
      · simp only [if_pos hl]; exact hs _
      · simp only [if_neg hl]; exact hp _

/-- C4: every Candidate the Driver evaluates — random sample in the Exploring
phase or acquisition maximizer in the Exploiting phase — satisfies every
Dimension constraint of the declared param_grid: n_estimators is an integer
in 10..120, min_samples_split a real in the interval from 0 to 0.999,
max_depth an integer in 1..5, and loss is deviance or exponential. -/
theorem run_candidates_in_param_grid (rng rngA : ℕ → ℕ) (m : ℕ)
    (score : List (Obs GBMCandidate) → GBMCandidate → ℚ)
    (ni n : ℕ) (f : GBMCandidate → ℚ) :
    ∀ o ∈ runHistory ni (sampleCandidate rng) (proposeGBM rngA m score) f n,
      paramGridContains o.1 ∧
      (o.1.loss = LossKind.deviance ∨ o.1.loss = LossKind.exponential) := by
  intro o ho
  refine ⟨runHistory_candidates paramGridContains ni (sampleCandidate rng)
    (proposeGBM rngA m score) f n (sampleCandidate_contains rng)
    (proposeGBM_contains rngA m score) o ho, ?_⟩
  cases o.1.loss with
  | deviance => exact Or.inl rfl
  | exponential => exact Or.inr rfl

/-- C4 witness: the first observation of a concrete one-evaluation run. -/
theorem run_candidates_in_param_grid_witness :
    (sampleCandidate (fun r => r + 7) 0,
       (fun _ => (0 : ℚ)) (sampleCandidate (fun r => r + 7) 0)) ∈
      runHistory 1 (sampleCandidate (fun r => r + 7))
        (proposeGBM (fun r => r + 13) 3 (fun _ _ => 0)) (fun _ => (0 : ℚ)) 1 ∧
    paramGridContains (sampleCandidate (fun r => r + 7) 0) ∧
    ((sampleCandidate (fun r => r + 7) 0).loss = LossKind.deviance ∨
     (sampleCandidate (fun r => r + 7) 0).loss = LossKind.exponential) :=
  ⟨by simp [runHistory, nextCandidate],
   (run_candidates_in_param_grid (fun r => r + 7) (fun r => r + 13) 3
     (fun _ _ => 0) 1 1 (fun _ => (0 : ℚ))
     (sampleCandidate (fun r => r + 7) 0, (0 : ℚ))
     (by simp [runHistory, nextCandidate])).1,
   (run_candidates_in_param_grid (fun r => r + 7) (fun r => r + 13) 3
     (fun _ _ => 0) 1 1 (fun _ => (0 : ℚ))
     (sampleCandidate (fun r => r + 7) 0, (0 : ℚ))
     (by simp [runHistory, nextCandidate])).2⟩

theorem gaussPDF_pos (z : ℝ) : 0 < gaussPDF z := by
  unfold gaussPDF
  have h2pi : (0 : ℝ) < 2 * Real.pi := by positivity
  exact mul_pos (inv_pos.mpr (Real.sqrt_pos.mpr h2pi)) (Real.exp_pos _)

/-- The negated density is an antiderivative of t * pdf t. -/
theorem hasDerivAt_neg_gaussPDF (t : ℝ) :
    HasDerivAt (fun x => -gaussPDF x) (t * gaussPDF t) t := by
  have h1 : HasDerivAt (fun x : ℝ => -(1 / 2 : ℝ) * x ^ 2)
      (-(1 / 2 : ℝ) * ((2 : ℕ) * t ^ 1)) t :=
    (hasDerivAt_pow 2 t).const_mul (-(1 / 2 : ℝ))
  have h2 := h1.exp
  have h3 := (h2.const_mul ((Real.sqrt (2 * Real.pi))⁻¹)).neg
  have heq : t * gaussPDF t =
      -((Real.sqrt (2 * Real.pi))⁻¹ *
        (Real.exp (-(1 / 2 : ℝ) * t ^ 2) * (-(1 / 2 : ℝ) * ((2 : ℕ) * t ^ 1)))) := by
    unfold gaussPDF
    push_cast
    ring
  rw [heq]
  exact h3

theorem integrable_gaussPDF : MeasureTheory.Integrable gaussPDF := by
  have h := (integrable_exp_neg_mul_sq (b := (1 / 2 : ℝ)) (by norm_num)).const_mul
    ((Real.sqrt (2 * Real.pi))⁻¹)
  have heq : (fun x : ℝ => (Real.sqrt (2 * Real.pi))⁻¹ *
      Real.exp (-(1 / 2 : ℝ) * x ^ 2)) = gaussPDF := by
    funext x
    unfold gaussPDF
    norm_num
  rwa [heq] at h

theorem integrable_mul_gaussPDF :
    MeasureTheory.Integrable (fun t : ℝ => t * gaussPDF t) := by
  have h := (integrable_mul_exp_neg_mul_sq (b := (1 / 2 : ℝ)) (by norm_num)).const_mul
    ((Real.sqrt (2 * Real.pi))⁻¹)
  have heq : (fun x : ℝ => (Real.sqrt (2 * Real.pi))⁻¹ *
      (x * Real.exp (-(1 / 2 : ℝ) * x ^ 2))) = fun t : ℝ => t * gaussPDF t := by
    funext x
    unfold gaussPDF
    ring_nf
  rwa [heq] at h

theorem tendsto_neg_gaussPDF_atBot :
    Filter.Tendsto (fun t : ℝ => -gaussPDF t) Filter.atBot (nhds 0) := by
  have hsq : Filter.Tendsto (fun t : ℝ => t ^ 2) Filter.atBot Filter.atTop := by
    have h : Filter.Tendsto ((fun x : ℝ => x ^ 2) ∘ (fun t : ℝ => -t))
        Filter.atBot Filter.atTop :=
      (Filter.tendsto_pow_atTop (n := 2) (by norm_num)).comp
        Filter.tendsto_neg_atBot_atTop
    refine h.congr ?_
    intro t
    simp [Function.comp, neg_sq]
  have h1 : Filter.Tendsto (fun t : ℝ => -(1 / 2 : ℝ) * t ^ 2) Filter.atBot Filter.atBot :=
    Filter.Tendsto.const_mul_atTop_of_neg (by norm_num) hsq
  have h2 : Filter.Tendsto (fun t : ℝ => Real.exp (-(1 / 2 : ℝ) * t ^ 2))
      Filter.atBot (nhds 0) := Real.tendsto_exp_atBot.comp h1
  have h3 := (h2.const_mul ((Real.sqrt (2 * Real.pi))⁻¹)).neg
  simpa [gaussPDF] using h3

/-- The first moment of the Gaussian tail: the integral of t * pdf t up to z
is -pdf z. -/
theorem integral_Iic_mul_gaussPDF (z : ℝ) :
    ∫ t in Set.Iic z, t * gaussPDF t = -gaussPDF z := by
  have hderiv : ∀ x ∈ Set.Iic z, HasDerivAt (fun y => -gaussPDF y) (x * gaussPDF x) x :=
    fun x _ => hasDerivAt_neg_gaussPDF x
  have hint : MeasureTheory.IntegrableOn (fun t : ℝ => t * gaussPDF t) (Set.Iic z) :=
    integrable_mul_gaussPDF.integrableOn
  have h := MeasureTheory.integral_Iic_of_hasDerivAt_of_tendsto'
    hderiv hint tendsto_neg_gaussPDF_atBot
  simpa using h

theorem gaussCDF_nonneg (z : ℝ) : 0 ≤ gaussCDF z :=
  MeasureTheory.setIntegral_nonneg measurableSet_Iic (fun t _ => (gaussPDF_pos t).le)

/-- The Gaussian Mills inequality, in the form needed for Expected
Improvement: z * CDF z + PDF z is non-negative for every real z. -/
theorem gauss_mills_nonneg (z : ℝ) : 0 ≤ z * gaussCDF z + gaussPDF z := by
  rcases lt_or_ge z 0 with hz | hz
  · have hzne : z ≠ 0 := ne_of_lt hz
    have hinv : z⁻¹ < 0 := inv_lt_zero.mpr hz
    have hptwise : ∀ t ∈ Set.Iic z, gaussPDF t ≤ z⁻¹ * (t * gaussPDF t) := by
      intro t ht
      have h1 : (1 : ℝ) ≤ z⁻¹ * t := by
        have hmul := mul_le_mul_of_nonpos_left ht (le_of_lt hinv)
        rwa [inv_mul_cancel₀ hzne] at hmul
      calc gaussPDF t = 1 * gaussPDF t := (one_mul _).symm
        _ ≤ z⁻¹ * t * gaussPDF t := mul_le_mul_of_nonneg_right h1 (gaussPDF_pos t).le
        _ = z⁻¹ * (t * gaussPDF t) := by ring
    have hle : gaussCDF z ≤ ∫ t in Set.Iic z, z⁻¹ * (t * gaussPDF t) := by
      unfold gaussCDF
      exact MeasureTheory.setIntegral_mono_on
        integrable_gaussPDF.integrableOn
        (integrable_mul_gaussPDF.integrableOn.const_mul z⁻¹)
        measurableSet_Iic hptwise
    rw [MeasureTheory.integral_mul_left, integral_Iic_mul_gaussPDF] at hle
    have hmul := mul_le_mul_of_nonpos_left hle (le_of_lt hz)
    rw [← mul_assoc, mul_inv_cancel₀ hzne, one_mul] at hmul
    linarith
  · exact add_nonneg (mul_nonneg hz (gaussCDF_nonneg z)) (gaussPDF_pos z).le

/-- C3: the Expected Improvement score equals std * (z * Phi(z) + phi(z))
with z the standardized improvement (f_best - mean) / std when std is
positive, equals 0 when std is zero, is non-negative everywhere, and in
particular vanishes when std = 0 and the predicted mean exceeds the current
best. -/
theorem expectedImprovement_spec (fbest mean std : ℝ) :
    (0 < std → expectedImprovement fbest mean std =
       std * (((fbest - mean) / std) * gaussCDF ((fbest - mean) / std) +
              gaussPDF ((fbest - mean) / std))) ∧
    (std = 0 → expectedImprovement fbest mean std = 0) ∧
    0 ≤ expectedImprovement fbest mean std ∧
    (std = 0 ∧ fbest < mean → expectedImprovement fbest mean std = 0) := by
  refine ⟨fun h => by rw [expectedImprovement, if_pos h],
    fun h => by rw [expectedImprovement, if_neg (by rw [h]; exact lt_irrefl 0)],
    ?_,
    fun h => by rw [expectedImprovement, if_neg (by rw [h.1]; exact lt_irrefl 0)]⟩
  unfold expectedImprovement
  split
  · next h => exact mul_nonneg (le_of_lt h) (gauss_mills_nonneg _)
  · exact le_refl 0

/-- C3 witness: concrete posteriors with positive and with zero standard
deviation. -/
theorem expectedImprovement_spec_witness :
    ((0 : ℝ) < 1 ∧ expectedImprovement 0 0 1 =
       1 * (((0 - 0) / 1) * gaussCDF ((0 - 0) / 1) + gaussPDF ((0 - 0) / 1))) ∧
    ((0 : ℝ) = 0 ∧ (1 : ℝ) < 2 ∧ expectedImprovement 1 2 0 = 0) ∧
    0 ≤ expectedImprovement 0 0 1 :=
  ⟨⟨one_pos, (expectedImprovement_spec 0 0 1).1 one_pos⟩,
   ⟨rfl, one_lt_two, (expectedImprovement_spec 1 2 0).2.2.2 ⟨rfl, one_lt_two⟩⟩,
   (expectedImprovement_spec 0 0 1).2.2.1⟩

end SMBO
